import Mathlib

/-!
Verification development for the chat timeline synchronization core:
the message store merge algorithm (`processNewMessages`), incremental
change application (`applyChangeRecord`), the derived message overlay,
mark-as-read, optimistic send, the socket room reference counting,
the debounce helper and the change-channel subscription.

All definitions are shallow embeddings of the TypeScript and JavaScript
sources in `src/hooks/use-chat.ts` and the socket client module.
JavaScript `Map` objects are modelled as association lists preserving
insertion order; JavaScript truthiness of strings and numbers is made
explicit (`""` and `0` are falsy); `JSON.stringify` payload comparison
is modelled as structural equality of the message record.
-/

/-- A chat message, shallowly embedded: `id` and `createdAt` are the
fields the algorithms inspect; `text` stands for the rest of the payload
(so structural inequality models a differing serialized payload). -/
structure Msg where
  id : String
  createdAt : Nat
  text : String
deriving DecidableEq, Repr

/-- A fetched page: the message list and the `lastChangeId` cursor value
returned by the messages-get endpoint. -/
structure Page where
  messages : List Msg
  lastChangeId : String
deriving DecidableEq, Repr

/-- Association list standing for a JavaScript `Map` with string keys
(insertion order preserved, unique keys under the operations below). -/
abbrev StrMap (α : Type) := List (String × α)

/-- `Map.get`: the value at the first matching key, if any. -/
def mapGet {α : Type} : StrMap α → String → Option α
  | [], _ => none
  | p :: ps, k => if p.1 = k then some p.2 else mapGet ps k

/-- `Map.set`: replace the value at an existing key in place, else append
a fresh entry at the end (JavaScript `Map` insertion-order semantics). -/
def mapSet {α : Type} : StrMap α → String → α → StrMap α
  | [], k, v => [(k, v)]
  | p :: ps, k, v => if p.1 = k then (k, v) :: ps else p :: mapSet ps k v

/-- `Map.delete`: remove the entries at the key. -/
def mapDelete {α : Type} (m : StrMap α) (k : String) : StrMap α :=
  m.filter (fun p => decide (p.1 ≠ k))

/-- `Map.has`: the key resolves to a value. -/
def mapHas {α : Type} (m : StrMap α) (k : String) : Prop :=
  mapGet m k ≠ none

instance {α : Type} (m : StrMap α) (k : String) [DecidableEq α] :
    Decidable (mapHas m k) := by
  unfold mapHas; infer_instance

/-- The chat store held by the hook: the canonical message sequence
(`messagesRef`), the id index (`messagesByIdRef`), the pending optimistic
sends (`sentMessagesRef`), the contiguous-from-start flag
(`firstMessagesPageLoadedRef`), and the three id refs. -/
structure ChatStore where
  messages : List Msg
  index : StrMap Msg
  sent : StrMap Msg
  firstPageLoaded : Bool
  lastMessageId : Option String
  lastChangeId : Option String
  lastMarkAsReadId : Option String
deriving DecidableEq, Repr

/-- JavaScript truthiness of an optional string: present and nonempty. -/
def strTruthy (s : Option String) : Prop := s ≠ none ∧ s ≠ some ""

instance (s : Option String) : Decidable (strTruthy s) := by
  unfold strTruthy; infer_instance

/-- JavaScript truthiness of an optional number: present and nonzero. -/
def natTruthy (n : Option Nat) : Prop := n ≠ none ∧ n ≠ some 0

instance (n : Option Nat) : Decidable (natTruthy n) := by
  unfold natTruthy; infer_instance

/-- The three merge modes of `processNewMessages`. -/
inductive AddType
  | append
  | prepend
  | replace
deriving DecidableEq, Repr

/-- The merge-mode classification of `processNewMessages`
(`use-chat.ts` lines 180 to 197), deciding between append, prepend and
replace from the store, the page, the pivot and the slice parameters. -/
def classifyAdd (st : ChatStore) (newMessages : List Msg)
    (pw : Option String) (sb sa : Option Nat) : AddType :=
  if st.messages = [] then AddType.append
  else if ¬ strTruthy pw then
    match newMessages.getLast? with
    | some m => if mapHas st.index m.id then AddType.prepend else AddType.replace
    | none => AddType.replace
  else if st.messages.head?.map Msg.id = pw ∧ natTruthy sa then AddType.prepend
  else if st.messages.getLast?.map Msg.id = pw ∧ natTruthy sb then AddType.append
  else AddType.replace

/-- Index of the pivot inside the fetched page (`indexOfPageWith ?? 0`). -/
def pageWithIdx (newMessages : List Msg) (pw : Option String) : Nat :=
  if strTruthy pw then newMessages.findIdx (fun m => decide (some m.id = pw)) else 0

/-- The recomputation of the contiguous-from-start flag
(`use-chat.ts` lines 199 to 206), evaluated on the store before any
clearing or insertion. -/
def computeFpl (st : ChatStore) (newMessages : List Msg)
    (pw : Option String) (sb sa : Option Nat) : Bool :=
  if st.firstPageLoaded = true ∧ strTruthy pw ∧ natTruthy sb ∧ ¬ natTruthy sa then
    decide (st.messages ≠ [] ∧ st.messages.getLast?.map Msg.id = pw)
  else
    decide (¬ strTruthy pw ∨ (natTruthy sa ∧ pageWithIdx newMessages pw + 1 < sa.getD 0))

/-- Accumulator of the insertion loop of `processNewMessages`: the id
index, the pending sends, the sequence and the set of updated ids. -/
structure MergeAcc where
  index : StrMap Msg
  sent : StrMap Msg
  messages : List Msg
  updated : List String
deriving DecidableEq, Repr

/-- One iteration of the insertion loop (`use-chat.ts` lines 217 to 234):
skip falsy ids; an indexed id with a differing payload is re-indexed and
recorded as updated; a fresh id is indexed, removed from pending sends
and pushed at the tail (append) or head (prepend). -/
def insertStep (isAppend : Bool) (acc : MergeAcc) (m : Msg) : MergeAcc :=
  if m.id = "" then acc
  else
    match mapGet acc.index m.id with
    | some ex =>
      if ex ≠ m then
        { acc with index := mapSet acc.index m.id m, updated := m.id :: acc.updated }
      else acc
    | none =>
      { acc with
        index := mapSet acc.index m.id m,
        sent := mapDelete acc.sent m.id,
        messages := if isAppend then acc.messages ++ [m] else m :: acc.messages }

/-- The full insertion loop over the iterated message list. -/
def insertAll (isAppend : Bool) (acc : MergeAcc) : List Msg → MergeAcc
  | [] => acc
  | m :: ms => insertAll isAppend (insertStep isAppend acc m) ms

/-- The post-loop in-place refresh of updated sequence entries
(`use-chat.ts` lines 237 to 244). -/
def applyUpdates (acc : MergeAcc) : List Msg :=
  if acc.updated = [] then acc.messages
  else acc.messages.map (fun m =>
    if m.id ∈ acc.updated then (mapGet acc.index m.id).getD m else m)

/-- The mutating part of `processNewMessages`, after the early-return
guards have passed (`use-chat.ts` lines 180 to 255). -/
def processCore (st : ChatStore) (page : Page)
    (pw : Option String) (sb sa : Option Nat) : ChatStore :=
  let newMessages := page.messages
  let addType := classifyAdd st newMessages pw sb sa
  let fpl := computeFpl st newMessages pw sb sa
  let index0 := if addType = AddType.replace then [] else st.index
  let messages0 := if addType = AddType.replace then [] else st.messages
  let isAppend : Bool := addType ≠ AddType.prepend
  let iterated := if isAppend then newMessages else newMessages.reverse
  let acc := insertAll isAppend ⟨index0, st.sent, messages0, []⟩ iterated
  let messages1 := applyUpdates acc
  { st with
    messages := messages1,
    index := acc.index,
    sent := acc.sent,
    firstPageLoaded := fpl,
    lastMessageId :=
      if fpl = true ∧ messages1 ≠ [] then messages1.head?.map Msg.id
      else st.lastMessageId,
    lastChangeId :=
      if page.lastChangeId ≠ "" then some page.lastChangeId else st.lastChangeId }

/-- `processNewMessages` (`use-chat.ts` lines 167 to 258): the boolean is
the applied flag; on a missing payload, an empty page, or a truthy pivot
absent from the page the call returns false and leaves the store as is. -/
def processNewMessages (st : ChatStore) (pageData : Option Page)
    (pw : Option String) (sb sa : Option Nat) : Bool × ChatStore :=
  match pageData with
  | none => (false, st)
  | some page =>
    if page.messages = [] then (false, st)
    else if strTruthy pw ∧ (∀ m ∈ page.messages, some m.id ≠ pw) then (false, st)
    else (true, processCore st page pw sb sa)

/-- Operation tag of a change record. -/
inductive ChangeOp
  | create
  | update
  | delete
deriving DecidableEq, Repr

/-- A change record from the changes-since-cursor endpoint: the cursor
id, the operation, an optional full message payload (create and update)
and an optional bare message id (delete). -/
structure ChangeRec where
  id : String
  operation : ChangeOp
  message : Option Msg
  messageId : Option String
deriving DecidableEq, Repr

/-- Replace the first sequence entry with the given id, if any
(the `findIndex` plus in-place assignment of the update branch). -/
def setFirstById (m : Msg) : List Msg → List Msg
  | [] => []
  | x :: xs => if x.id = m.id then m :: xs else x :: setFirstById m xs

/-- Application of one change record (`use-chat.ts` lines 342 to 369):
create indexes the message, prepends it to the visible sequence only when
the contiguous-from-start flag is set, and clears a matching pending
send; update re-indexes and replaces the first matching sequence entry;
delete removes the id from index and sequence; finally the record id
becomes the cursor when truthy. -/
def applyChangeRecord (st : ChatStore) (ch : ChangeRec) : ChatStore :=
  let st1 :=
    match ch.operation, ch.message, ch.messageId with
    | ChangeOp.create, some m, _ =>
      { st with
        lastMessageId := some m.id,
        index := mapSet st.index m.id m,
        messages := if st.firstPageLoaded then m :: st.messages else st.messages,
        sent := mapDelete st.sent m.id }
    | ChangeOp.update, some m, _ =>
      { st with
        index := mapSet st.index m.id m,
        messages := setFirstById m st.messages }
    | ChangeOp.delete, _, some mid =>
      if mid ≠ "" then
        { st with
          index := mapDelete st.index mid,
          messages := st.messages.filter (fun x => decide (x.id ≠ mid)) }
      else st
    | _, _, _ => st
  { st1 with lastChangeId := if ch.id ≠ "" then some ch.id else st1.lastChangeId }

/-- The id-deduplicating emission walk of the derived `messages` memo:
emit each message whose id was not seen yet, threading the seen set.
Returns the emitted list and the final seen set. -/
def dedupWalk : List String → List Msg → List Msg × List String
  | seen, [] => ([], seen)
  | seen, m :: ms =>
    if m.id ∈ seen then dedupWalk seen ms
    else
      let r := dedupWalk (m.id :: seen) ms
      (m :: r.1, r.2)

/-- The pending-send part of the derived view: the pending sends walked
in reverse insertion order (most recently queued first), deduplicated. -/
def pendingPart (st : ChatStore) : List Msg :=
  (dedupWalk [] (st.sent.map Prod.snd).reverse).1

/-- The canonical part of the derived view: the canonical sequence,
skipping ids already emitted by the pending walk. -/
def canonicalPart (st : ChatStore) : List Msg :=
  (dedupWalk (dedupWalk [] (st.sent.map Prod.snd).reverse).2 st.messages).1

/-- The derived `messages` value (`use-chat.ts` lines 97 to 123):
pending sends in reverse insertion order first, then the canonical
sequence, all deduplicated by id in emission order. -/
def derivedMessages (st : ChatStore) : List Msg :=
  pendingPart st ++ canonicalPart st

/-- The age guard of `markAsRead` (`use-chat.ts` line 487): both
creation times truthy and the target strictly older than the marker. -/
def olderGuard (m : Msg) (lastMark : Option Msg) : Bool :=
  decide (m.createdAt ≠ 0) &&
    (match lastMark with
     | some lm => decide (lm.createdAt ≠ 0) && decide (m.createdAt < lm.createdAt)
     | none => false)

/-- `markAsRead` (`use-chat.ts` lines 477 to 510) up to its network
call: the boolean reports whether the mark request is issued; the store
records the updated last-marked pointer. The marker message is resolved
by looking the truthy last-marked id up in the id index. -/
def markAsRead (st : ChatStore) (hasUrl : Bool) (m : Msg) : Bool × ChatStore :=
  if hasUrl = false then (false, st)
  else
    let lastMark : Option Msg :=
      match st.lastMarkAsReadId with
      | some i => if i ≠ "" then mapGet st.index i else none
      | none => none
    if lastMark.map Msg.id = some m.id then (false, st)
    else if olderGuard m lastMark then (false, st)
    else (true, { st with lastMarkAsReadId := some m.id })

/-- Characters removed by the JavaScript `trim` call on message text. -/
def jsWhitespace (c : Char) : Bool :=
  c = ' ' || c = '\t' || c = '\n' || c = '\r' || c = '\x0b' || c = '\x0c' ||
    c = '\u00A0' || c = '\uFEFF'

/-- The JavaScript `String.prototype.trim`: strip leading and trailing
whitespace. -/
def jsTrim (s : String) : String :=
  String.mk (((s.toList.dropWhile jsWhitespace).reverse.dropWhile jsWhitespace).reverse)

/-- `sendMessage` (`use-chat.ts` lines 384 to 413) up to its network
call: guard on a present chat config and a nonempty trimmed text, then
insert the optimistic temporary message into the pending sends. The
boolean reports whether the add request is issued; `genId` and `now`
stand for the generated client id and the current clock. -/
def sendMessage (st : ChatStore) (hasConfig : Bool) (text : String)
    (genId : String) (now : Nat) : Bool × ChatStore :=
  if hasConfig = false ∨ jsTrim text = "" then (false, st)
  else
    let temp : Msg := { id := genId, createdAt := now, text := jsTrim text }
    (true, { st with sent := mapSet st.sent genId temp })

/-- State of the socket store room bookkeeping: the reference counts by
room name and the trace of join and leave events emitted to the remote
(the model assumes a live underlying connection). -/
structure SocketSt where
  rooms : StrMap Nat
  emitted : List (String × String)
deriving DecidableEq, Repr

/-- `SocketStore.join` (socket client lines 132 to 147): increment a
truthy count, else set it to one and emit a remote join. -/
def joinRoom (s : SocketSt) (r : String) : SocketSt :=
  match mapGet s.rooms r with
  | some n =>
    if n ≠ 0 then { s with rooms := mapSet s.rooms r (n + 1) }
    else { s with rooms := mapSet s.rooms r 1, emitted := s.emitted ++ [("join", r)] }
  | none =>
    { s with rooms := mapSet s.rooms r 1, emitted := s.emitted ++ [("join", r)] }

/-- `SocketStore.leave` (socket client lines 149 to 157): on a truthy
positive count, decrement, emit a remote leave only when the decremented
count is zero, then delete the room entry unconditionally. -/
def leaveRoom (s : SocketSt) (r : String) : SocketSt :=
  match mapGet s.rooms r with
  | some n =>
    if n ≠ 0 ∧ 0 < n then
      { s with
        rooms := mapDelete s.rooms r,
        emitted := if n - 1 = 0 then s.emitted ++ [("leave", r)] else s.emitted }
    else s
  | none => s

/-- Scheduler state of the debounced closure: the pending timeout (fire
time and the captured arguments) and the invocations so far. -/
structure DebounceState (α : Type) where
  pending : Option (Nat × α)
  invocations : List (Nat × α)
deriving DecidableEq, Repr

/-- One call of the debounced closure at a point in time: a timeout due
by then fires first and clears the scheduled flag; then the call either
is dropped (still scheduled) or schedules a timeout capturing its own
arguments, `ms` in the future. -/
def debounceStep {α : Type} (ms : Nat) (st : DebounceState α)
    (c : Nat × α) : DebounceState α :=
  let st1 : DebounceState α :=
    match st.pending with
    | some fp =>
      if fp.1 ≤ c.1 then
        { pending := none, invocations := st.invocations ++ [fp] }
      else st
    | none => st
  match st1.pending with
  | some _ => st1
  | none => { st1 with pending := some (c.1 + ms, c.2) }

/-- The observable behaviour of `debounce(callback, ms)` (socket client
lines 4 to 23) on a time-ordered call trace: with `ms = 0` the raw
callback runs at every call; otherwise the scheduled-flag machine runs
and a still-pending timeout fires after the trace ends. Each invocation
is (fire time, arguments delivered to the callback). -/
def debounceRun {α : Type} (ms : Nat) (calls : List (Nat × α)) : List (Nat × α) :=
  if ms = 0 then calls
  else
    let fin := calls.foldl (debounceStep ms) ⟨none, []⟩
    fin.invocations ++ (match fin.pending with | some fp => [fp] | none => [])

/-- Cached state of one change-channel subscription: the last observed
opaque value (absent before any observation). -/
structure SubscriptionState where
  lastUpdatedValue : Option String
deriving DecidableEq, Repr

/-- Truthiness of an opaque value datum. -/
def valueTruthy (v : Option String) : Prop := v ≠ none ∧ v ≠ some ""

instance (v : Option String) : Decidable (valueTruthy v) := by
  unfold valueTruthy; infer_instance

/-- The acknowledgment path of `SocketSubscription.open` (socket client
lines 334 to 351): listeners fire only when the cached value and the
datum are both truthy and differ; the cache is then overwritten. -/
def ackReceive (st : SubscriptionState) (data : Option String) :
    Bool × SubscriptionState :=
  (decide (valueTruthy st.lastUpdatedValue ∧ valueTruthy data ∧
      st.lastUpdatedValue ≠ data),
   { lastUpdatedValue := data })

/-- The push path of `SocketSubscription.open` (socket client lines 355
to 360): the cache is overwritten and listeners always fire. -/
def pushReceive (st : SubscriptionState) (data : Option String) :
    Bool × SubscriptionState :=
  (true, { lastUpdatedValue := data })

/-- The messages of the insertion loop that actually enter the sequence:
truthy id and not yet indexed. -/
def freshPred (idx : StrMap Msg) (m : Msg) : Bool :=
  decide (m.id ≠ "") && decide (¬ mapHas idx m.id)

/-- A single consistent chronological order for the canonical sequence:
newest first, weakly descending creation time (live creates are
prepended at the head, pagination appends older messages at the tail). -/
def SortedByCreated (l : List Msg) : Prop :=
  l.Pairwise (fun a b => b.createdAt ≤ a.createdAt)

instance (l : List Msg) : Decidable (SortedByCreated l) := by
  unfold SortedByCreated; infer_instance

/-- The canonical-store invariant of claim C1: no duplicate ids in the
sequence, every sequence entry indexed under its id with itself as the
indexed payload, and the sequence chronologically ordered. -/
def StoreInv (st : ChatStore) : Prop :=
  (st.messages.map Msg.id).Nodup ∧
  (∀ m ∈ st.messages, mapGet st.index m.id = some m) ∧
  SortedByCreated st.messages

instance (st : ChatStore) : Decidable (StoreInv st) := by
  unfold StoreInv; infer_instance

/-- Consistency of one fetched page with the current store (the meaning
of a merge with a consistent pivot): page ids are unique, the page is
chronologically ordered, a page payload sharing an id with an indexed
message keeps its creation time, and in append (resp. prepend) mode
every genuinely new page message is no newer than the current tail
(resp. no older than the current head), as a correctly anchored page
continuation is. -/
def PageConsistent (st : ChatStore) (page : Page) (pw : Option String)
    (sb sa : Option Nat) : Prop :=
  (page.messages.map Msg.id).Nodup ∧
  SortedByCreated page.messages ∧
  (∀ m ∈ page.messages, ∀ ex, mapGet st.index m.id = some ex →
    ex.createdAt = m.createdAt) ∧
  (classifyAdd st page.messages pw sb sa = AddType.append →
    ∀ m ∈ page.messages, ¬ mapHas st.index m.id →
      ∀ tl, st.messages.getLast? = some tl → m.createdAt ≤ tl.createdAt) ∧
  (classifyAdd st page.messages pw sb sa = AddType.prepend →
    ∀ m ∈ page.messages, ¬ mapHas st.index m.id →
      ∀ hd, st.messages.head? = some hd → hd.createdAt ≤ m.createdAt)

instance (st : ChatStore) (page : Page) (pw : Option String) (sb sa : Option Nat) :
    Decidable (PageConsistent st page pw sb sa) := by
  unfold PageConsistent; infer_instance

theorem mapGet_mapSet_self {α : Type} (m : StrMap α) (k : String) (v : α) :
    mapGet (mapSet m k v) k = some v := by
  induction m with
  | nil => simp [mapGet, mapSet]
  | cons p ps ih =>
    by_cases h : p.1 = k
    · simp [mapGet, mapSet, h]
    · simp [mapGet, mapSet, h, ih]

theorem mapGet_mapSet_ne {α : Type} (m : StrMap α) (k k' : String) (v : α)
    (h : k' ≠ k) : mapGet (mapSet m k v) k' = mapGet m k' := by
  induction m with
  | nil => simp [mapGet, mapSet, Ne.symm h]
  | cons p ps ih =>
    by_cases hp : p.1 = k
    · subst hp
      simp [mapGet, mapSet, Ne.symm h]
    · simp [mapGet, mapSet, hp, ih]

theorem mapHas_mapSet {α : Type} (m : StrMap α) (k k' : String) (v : α) :
    mapHas (mapSet m k v) k' ↔ (k' = k ∨ mapHas m k') := by
  by_cases h : k' = k
  · subst h
    simp [mapHas, mapGet_mapSet_self]
  · simp [mapHas, mapGet_mapSet_ne m k k' v h, h]

theorem mapHas_of_get_some {α : Type} {m : StrMap α} {k : String} {v : α}
    (h : mapGet m k = some v) : mapHas m k := by
  simp [mapHas, h]

theorem mapSet_idem {α : Type} (m : StrMap α) (k : String) (v : α) :
    mapSet (mapSet m k v) k v = mapSet m k v := by
  induction m with
  | nil => simp [mapSet]
  | cons p ps ih =>
    by_cases h : p.1 = k
    · simp [mapSet, h]
    · simp [mapSet, h, ih]

theorem filter_self_idem {α : Type} (p : α → Bool) (l : List α) :
    (l.filter p).filter p = l.filter p := by
  induction l with
  | nil => rfl
  | cons x xs ih =>
    by_cases h : p x
    · simp [List.filter, h, ih]
    · simp [List.filter, h, ih]

theorem mapDelete_idem {α : Type} (m : StrMap α) (k : String) :
    mapDelete (mapDelete m k) k = mapDelete m k := by
  unfold mapDelete
  exact filter_self_idem _ m

theorem strTruthy_none : ¬ strTruthy none := by
  simp [strTruthy]

/-- The absent-pivot rejection guard taken as a whole: a truthy pivot
missing from the page makes `processNewMessages` return false with the
store untouched. -/
theorem processNewMessages_reject {st : ChatStore} {page : Page}
    {pw : Option String} {sb sa : Option Nat}
    (hpw : strTruthy pw) (habs : ∀ m ∈ page.messages, some m.id ≠ pw) :
    processNewMessages st (some page) pw sb sa = (false, st) := by
  have hred : processNewMessages st (some page) pw sb sa =
      (if page.messages = [] then (false, st)
       else if strTruthy pw ∧ ∀ m ∈ page.messages, some m.id ≠ pw then (false, st)
       else (true, processCore st page pw sb sa)) := rfl
  by_cases hempty : page.messages = []
  · rw [hred, if_pos hempty]
  · rw [hred, if_neg hempty, if_pos ⟨hpw, habs⟩]

/-- C3: for every store state and every merge call that supplies a
(truthy) pivot id absent from the fetched page, the call returns
applied = false and leaves the canonical sequence, the id index, the
pending-send map and the cursor all unchanged (the whole store is
returned as is). -/
theorem pivot_absent_merge_rejected (st : ChatStore) (page : Page)
    (pw : Option String) (sb sa : Option Nat)
    (hpw : strTruthy pw) (habs : ∀ m ∈ page.messages, some m.id ≠ pw) :
    (processNewMessages st (some page) pw sb sa).1 = false ∧
    (processNewMessages st (some page) pw sb sa).2 = st := by
  rw [processNewMessages_reject hpw habs]
  exact ⟨rfl, rfl⟩

/-- Witness for C3 at a concrete store, page and missing pivot. -/
theorem pivot_absent_merge_rejected_witness :
    strTruthy (some "zz") ∧
    (∀ m ∈ ([⟨"a", 1, "x"⟩] : List Msg), some m.id ≠ some "zz") ∧
    ((processNewMessages ⟨[⟨"b", 2, "y"⟩], [("b", ⟨"b", 2, "y"⟩)], [], true,
        some "b", some "7", none⟩
        (some ⟨[⟨"a", 1, "x"⟩], "9"⟩) (some "zz") (some 5) none).1 = false ∧
      (processNewMessages ⟨[⟨"b", 2, "y"⟩], [("b", ⟨"b", 2, "y"⟩)], [], true,
        some "b", some "7", none⟩
        (some ⟨[⟨"a", 1, "x"⟩], "9"⟩) (some "zz") (some 5) none).2 =
        ⟨[⟨"b", 2, "y"⟩], [("b", ⟨"b", 2, "y"⟩)], [], true, some "b", some "7", none⟩) :=
  ⟨by decide, by decide,
    pivot_absent_merge_rejected _ _ _ _ _ (by decide) (by decide)⟩

/-- C7: the room reference counting is broken in `leave` — after two
joins and two leaves of the same room, the remote trace holds the single
join but no leave at all, because the first leave deletes the room entry
even though the decremented count is still 1, so the count never reaches
the zero transition that would emit the leave. The claimed behaviour
(exactly one join and one leave emitted) fails on the code. -/
theorem room_refcount_leave_bug :
    (joinRoom (joinRoom ⟨[], []⟩ "room") "room").rooms = [("room", 2)] ∧
    (leaveRoom (joinRoom (joinRoom ⟨[], []⟩ "room") "room") "room").rooms = [] ∧
    (leaveRoom (leaveRoom (joinRoom (joinRoom ⟨[], []⟩ "room") "room") "room")
        "room").emitted = [("join", "room")] := by
  decide

/-- A pending debounce timeout survives every further call strictly
before its fire time, and those calls are dropped. -/
theorem debounce_pending_stable {α : Type} (ms ft : Nat) (pa : α)
    (inv : List (Nat × α)) (rest : List (Nat × α))
    (hwin : ∀ c ∈ rest, c.1 < ft) :
    rest.foldl (debounceStep ms) ⟨some (ft, pa), inv⟩ = ⟨some (ft, pa), inv⟩ := by
  induction rest with
  | nil => rfl
  | cons c cs ih =>
    have hc : c.1 < ft := hwin c (by simp)
    have hstep : debounceStep ms ⟨some (ft, pa), inv⟩ c = ⟨some (ft, pa), inv⟩ := by
      unfold debounceStep
      simp [Nat.not_le.mpr hc]
    rw [List.foldl_cons, hstep]
    exact ih (fun c hc' => hwin c (List.mem_cons_of_mem _ hc'))

/-- C8 amended: with a nonzero interval, a burst whose later calls all
fall strictly inside the interval opened by the first call produces
exactly one invocation, which fires one interval after the first call
and receives the FIRST call arguments of the burst — not, as claimed,
the most recent ones (the closure captures the outer `arguments` of the
call that scheduled the timeout and drops every later call). -/
theorem debounce_burst_first_args {α : Type} (ms t0 : Nat) (a0 : α)
    (rest : List (Nat × α)) (hms : ms ≠ 0)
    (hwin : ∀ c ∈ rest, c.1 < t0 + ms) :
    debounceRun ms ((t0, a0) :: rest) = [(t0 + ms, a0)] := by
  unfold debounceRun
  rw [if_neg hms]
  have h1 : debounceStep ms ⟨none, []⟩ (t0, a0) = ⟨some (t0 + ms, a0), []⟩ := by
    unfold debounceStep
    simp
  simp only [List.foldl_cons, h1, debounce_pending_stable ms (t0 + ms) a0 [] rest hwin]
  rfl

/-- C8 counterexample: interval 10, calls at t=0 with arguments 0 and at
t=5 with arguments 1 — one invocation fires at t=10 delivering the first
arguments 0, so the claimed delivery of the most recent arguments 1 is
false. -/
theorem debounce_burst_counterexample :
    debounceRun 10 [((0 : Nat), (0 : Nat)), (5, 1)] = [(10, 0)] ∧
    debounceRun 10 [((0 : Nat), (0 : Nat)), (5, 1)] ≠ [(10, 1)] := by
  decide

/-- Witness for the amended C8 theorem at the counterexample burst. -/
theorem debounce_burst_first_args_witness :
    (10 : Nat) ≠ 0 ∧ (∀ c ∈ [((5 : Nat), (1 : Nat))], c.1 < 0 + 10) ∧
    debounceRun 10 [((0 : Nat), (0 : Nat)), (5, 1)] = [(0 + 10, 0)] :=
  ⟨by decide, by decide,
    debounce_burst_first_args 10 0 0 [(5, 1)] (by decide) (by decide)⟩

/-- C9 amended: on the acknowledgment path the listeners fire exactly
when the cached value and the datum are both truthy and differ, while on
the push path the listeners always fire, whether or not the datum
differs from the cache; both paths overwrite the cache. -/
theorem changeChannel_fire_characterization (st : SubscriptionState)
    (d : Option String) :
    ((ackReceive st d).1 = true ↔
      (valueTruthy st.lastUpdatedValue ∧ valueTruthy d ∧
        st.lastUpdatedValue ≠ d)) ∧
    (pushReceive st d).1 = true ∧
    (ackReceive st d).2.lastUpdatedValue = d ∧
    (pushReceive st d).2.lastUpdatedValue = d := by
  refine ⟨?_, rfl, rfl, rfl⟩
  simp [ackReceive]

/-- C9 counterexample: a push carrying a value equal to the cached one
still invokes the listeners, so invocation is not equivalent to the new
value differing from the cache. -/
theorem changeChannel_push_counterexample :
    ¬ (((pushReceive ⟨some "v"⟩ (some "v")).1 = true) ↔
        (SubscriptionState.mk (some "v")).lastUpdatedValue ≠ some "v") := by
  decide

/-- Witness for the C9 characterization at a concrete cache and datum. -/
theorem changeChannel_fire_characterization_witness :
    ((ackReceive ⟨none⟩ (some "v")).1 = true ↔
      (valueTruthy (SubscriptionState.mk none).lastUpdatedValue ∧
        valueTruthy (some "v") ∧
        (SubscriptionState.mk none).lastUpdatedValue ≠ some "v")) ∧
    (pushReceive ⟨none⟩ (some "v")).1 = true ∧
    (ackReceive ⟨none⟩ (some "v")).2.lastUpdatedValue = some "v" ∧
    (pushReceive ⟨none⟩ (some "v")).2.lastUpdatedValue = some "v" :=
  changeChannel_fire_characterization ⟨none⟩ (some "v")

/-- A character list of whitespace only is fully dropped by `dropWhile`. -/
theorem dropWhile_all_ws (l : List Char) (h : l.all jsWhitespace = true) :
    l.dropWhile jsWhitespace = [] := by
  induction l with
  | nil => rfl
  | cons c cs ih =>
    simp only [List.all_cons, Bool.and_eq_true] at h
    simp [List.dropWhile, h.1, ih h.2]

/-- Trimming a whitespace-only text yields the empty string. -/
theorem jsTrim_blank {text : String} (h : text.toList.all jsWhitespace = true) :
    jsTrim text = "" := by
  unfold jsTrim
  rw [dropWhile_all_ws _ h]
  rfl

/-- C10: for every input text that is empty or consists only of
whitespace, `sendMessage` returns without any effect: no pending send is
inserted, no network request is issued, the store is untouched. -/
theorem sendMessage_blank_is_noop (st : ChatStore) (hasConfig : Bool)
    (text genId : String) (now : Nat)
    (h : text.toList.all jsWhitespace = true) :
    sendMessage st hasConfig text genId now = (false, st) := by
  unfold sendMessage
  rw [if_pos (Or.inr (jsTrim_blank h))]

/-- Witness for C10 on a whitespace-only text. -/
theorem sendMessage_blank_is_noop_witness :
    (" \t ".toList.all jsWhitespace = true) ∧
    sendMessage ⟨[], [], [], false, none, none, none⟩ true " \t " "g1" 5 =
      (false, ⟨[], [], [], false, none, none, none⟩) :=
  ⟨by decide,
    sendMessage_blank_is_noop _ true " \t " "g1" 5 (by decide)⟩

/-- C6 amended: when the last-marked pointer resolves (a truthy id that
the index maps to the marker message), `markAsRead` on a message that is
strictly older by a NONZERO creation time, or whose id matches the
marker, is a no-op: the pointer is unchanged and no mark request is
issued. The nonzero proviso is forced by the code: a zero creation time
is falsy and skips the age comparison, so such a message is marked even
when older (see the counterexample). -/
theorem markAsRead_older_or_same_noop (st : ChatStore) (hasUrl : Bool)
    (m lm : Msg) (i : String)
    (hi : st.lastMarkAsReadId = some i) (hine : i ≠ "")
    (hlm : mapGet st.index i = some lm)
    (hcond : (m.createdAt ≠ 0 ∧ m.createdAt < lm.createdAt) ∨ m.id = lm.id) :
    markAsRead st hasUrl m = (false, st) := by
  unfold markAsRead
  by_cases hurl : hasUrl = false
  · rw [if_pos hurl]
  · rw [if_neg hurl, hi]
    simp only [if_pos hine, hlm]
    by_cases hid : lm.id = m.id
    · rw [if_pos (by simp [hid])]
    · rw [if_neg (by simp [hid])]
      have hold : m.createdAt ≠ 0 ∧ m.createdAt < lm.createdAt := by
        rcases hcond with h | h
        · exact h
        · exact absurd h.symm hid
      have hguard : olderGuard m (some lm) = true := by
        unfold olderGuard
        have hlmpos : lm.createdAt ≠ 0 :=
          Nat.pos_iff_ne_zero.mp (Nat.lt_of_le_of_lt (Nat.zero_le _) hold.2)
        simp [hold.1, hold.2, hlmpos]
      rw [if_pos hguard]

/-- C6 counterexample: the marker resolves to a message created at time
5; the target message has creation time 0 (older than 5) and a different
id, yet `markAsRead` issues the network call and moves the pointer,
because the zero creation time is falsy and the age guard is skipped. -/
theorem markAsRead_zero_time_counterexample :
    (⟨"new", 0, "t"⟩ : Msg).createdAt < (⟨"old", 5, "s"⟩ : Msg).createdAt ∧
    markAsRead ⟨[⟨"old", 5, "s"⟩], [("old", ⟨"old", 5, "s"⟩)], [], true,
        none, none, some "old"⟩ true ⟨"new", 0, "t"⟩ =
      (true, ⟨[⟨"old", 5, "s"⟩], [("old", ⟨"old", 5, "s"⟩)], [], true,
        none, none, some "new"⟩) := by
  decide

/-- Witness for the amended C6 theorem: an older message with nonzero
creation time is a no-op. -/
theorem markAsRead_older_or_same_noop_witness :
    (⟨[⟨"old", 5, "s"⟩], [("old", ⟨"old", 5, "s"⟩)], [], true, none, none,
        some "old"⟩ : ChatStore).lastMarkAsReadId = some "old" ∧
    ("old" : String) ≠ "" ∧
    mapGet ([("old", ⟨"old", 5, "s"⟩)] : StrMap Msg) "old" = some ⟨"old", 5, "s"⟩ ∧
    markAsRead ⟨[⟨"old", 5, "s"⟩], [("old", ⟨"old", 5, "s"⟩)], [], true, none,
        none, some "old"⟩ true ⟨"new", 3, "t"⟩ =
      (false, ⟨[⟨"old", 5, "s"⟩], [("old", ⟨"old", 5, "s"⟩)], [], true, none,
        none, some "old"⟩) :=
  ⟨by decide, by decide, by decide,
    markAsRead_older_or_same_noop _ true ⟨"new", 3, "t"⟩ ⟨"old", 5, "s"⟩ "old"
      rfl (by decide) (by decide) (Or.inl (by decide))⟩

theorem setFirstById_idem (m : Msg) (l : List Msg) :
    setFirstById m (setFirstById m l) = setFirstById m l := by
  induction l with
  | nil => rfl
  | cons x xs ih =>
    by_cases h : x.id = m.id
    · simp [setFirstById, h]
    · simp [setFirstById, h, ih]

/-- C4 amended: applying the same change record twice yields the same
store state as applying it once for update and delete records, and for
create records carrying no payload or applied while the
contiguous-from-start flag is unset. A create record with a payload
applied while the flag is set is NOT idempotent: the second application
prepends the message to the visible sequence again (the code unshifts
without an existence check), duplicating it, although index, pending
sends and cursor are unchanged. -/
theorem applyChange_idem (st : ChatStore) (ch : ChangeRec)
    (h : ch.operation = ChangeOp.create →
      (ch.message = none ∨ st.firstPageLoaded = false)) :
    applyChangeRecord (applyChangeRecord st ch) ch = applyChangeRecord st ch := by
  obtain ⟨cid, op, msg, mid⟩ := ch
  cases op with
  | create =>
    cases msg with
    | none =>
      unfold applyChangeRecord
      by_cases hc : cid ≠ ""
      · simp [hc]
      · simp [hc]
    | some m =>
      have hfpl : st.firstPageLoaded = false := by
        rcases h rfl with hmsg | hfpl
        · exact absurd hmsg (by simp)
        · exact hfpl
      unfold applyChangeRecord
      simp only [hfpl]
      by_cases hc : cid ≠ ""
      · simp [hc, hfpl, mapSet_idem, mapDelete_idem]
      · simp [hc, hfpl, mapSet_idem, mapDelete_idem]
  | update =>
    cases msg with
    | none =>
      unfold applyChangeRecord
      by_cases hc : cid ≠ ""
      · simp [hc]
      · simp [hc]
    | some m =>
      unfold applyChangeRecord
      by_cases hc : cid ≠ ""
      · simp [hc, mapSet_idem, setFirstById_idem]
      · simp [hc, mapSet_idem, setFirstById_idem]
  | delete =>
    cases mid with
    | none =>
      unfold applyChangeRecord
      by_cases hc : cid ≠ ""
      · simp [hc]
      · simp [hc]
    | some k =>
      unfold applyChangeRecord
      by_cases hk : k ≠ ""
      · by_cases hc : cid ≠ ""
        · simp [hk, hc, mapDelete_idem, filter_self_idem]
        · simp [hk, hc, mapDelete_idem, filter_self_idem]
      · by_cases hc : cid ≠ ""
        · simp [hk, hc]
        · simp [hk, hc]

/-- C4 counterexample: a create record applied twice while the
contiguous-from-start flag is set duplicates the created message at the
head of the canonical sequence, so the store differs from a single
application. -/
theorem applyChange_create_not_idempotent :
    applyChangeRecord
        (applyChangeRecord ⟨[], [], [], true, none, none, none⟩
          ⟨"c1", ChangeOp.create, some ⟨"a", 7, "t"⟩, none⟩)
        ⟨"c1", ChangeOp.create, some ⟨"a", 7, "t"⟩, none⟩ ≠
      applyChangeRecord ⟨[], [], [], true, none, none, none⟩
        ⟨"c1", ChangeOp.create, some ⟨"a", 7, "t"⟩, none⟩ ∧
    (applyChangeRecord
        (applyChangeRecord ⟨[], [], [], true, none, none, none⟩
          ⟨"c1", ChangeOp.create, some ⟨"a", 7, "t"⟩, none⟩)
        ⟨"c1", ChangeOp.create, some ⟨"a", 7, "t"⟩, none⟩).messages =
      [⟨"a", 7, "t"⟩, ⟨"a", 7, "t"⟩] := by
  decide

/-- Witness for the amended C4 theorem on a concrete delete record. -/
theorem applyChange_idem_witness :
    ((⟨"c2", ChangeOp.delete, none, some "a"⟩ : ChangeRec).operation =
        ChangeOp.create →
      ((⟨"c2", ChangeOp.delete, none, some "a"⟩ : ChangeRec).message = none ∨
        (⟨[⟨"a", 7, "t"⟩], [("a", ⟨"a", 7, "t"⟩)], [], true, none, none,
          none⟩ : ChatStore).firstPageLoaded = false)) ∧
    applyChangeRecord
        (applyChangeRecord ⟨[⟨"a", 7, "t"⟩], [("a", ⟨"a", 7, "t"⟩)], [], true,
          none, none, none⟩ ⟨"c2", ChangeOp.delete, none, some "a"⟩)
        ⟨"c2", ChangeOp.delete, none, some "a"⟩ =
      applyChangeRecord ⟨[⟨"a", 7, "t"⟩], [("a", ⟨"a", 7, "t"⟩)], [], true,
        none, none, none⟩ ⟨"c2", ChangeOp.delete, none, some "a"⟩ :=
  ⟨by decide,
    applyChange_idem _ ⟨"c2", ChangeOp.delete, none, some "a"⟩ (by decide)⟩

theorem dedupWalk_sublist (seen : List String) (l : List Msg) :
    (dedupWalk seen l).1.Sublist l := by
  induction l generalizing seen with
  | nil => simp [dedupWalk]
  | cons m ms ih =>
    by_cases h : m.id ∈ seen
    · simp only [dedupWalk, if_pos h]
      exact (ih seen).cons m
    · simp only [dedupWalk, if_neg h]
      exact (ih (m.id :: seen)).cons₂ m

theorem dedupWalk_seen_mem (seen : List String) (l : List Msg) (k : String) :
    k ∈ (dedupWalk seen l).2 ↔ (k ∈ seen ∨ k ∈ l.map Msg.id) := by
  induction l generalizing seen with
  | nil => simp [dedupWalk]
  | cons m ms ih =>
    by_cases h : m.id ∈ seen
    · simp only [dedupWalk, if_pos h, List.map_cons, List.mem_cons]
      rw [ih]
      constructor
      · rintro (hs | hm)
        · exact Or.inl hs
        · exact Or.inr (Or.inr hm)
      · rintro (hs | hk | hm)
        · exact Or.inl hs
        · exact Or.inl (hk ▸ h)
        · exact Or.inr hm
    · simp only [dedupWalk, if_neg h, List.map_cons, List.mem_cons]
      rw [ih]
      simp only [List.mem_cons]
      tauto

theorem dedupWalk_nodup (seen : List String) (l : List Msg) :
    ((dedupWalk seen l).1.map Msg.id).Nodup ∧
      (∀ m' ∈ (dedupWalk seen l).1, m'.id ∉ seen) := by
  induction l generalizing seen with
  | nil => simp [dedupWalk]
  | cons m ms ih =>
    by_cases h : m.id ∈ seen
    · simpa only [dedupWalk, if_pos h] using ih seen
    · simp only [dedupWalk, if_neg h, List.map_cons]
      obtain ⟨hnd, hout⟩ := ih (m.id :: seen)
      refine ⟨List.nodup_cons.mpr ⟨?_, hnd⟩, ?_⟩
      · intro hmem
        obtain ⟨m', hm', hid⟩ := List.mem_map.mp hmem
        exact (hout m' hm') (hid ▸ List.mem_cons_self m.id seen)
      · intro m' hm'
        rcases List.mem_cons.mp hm' with hx | hx
        · exact hx ▸ h
        · intro hs
          exact (hout m' hx) (List.mem_cons_of_mem _ hs)

theorem dedupWalk_covers (seen : List String) (l : List Msg) :
    ∀ m ∈ l, m.id ∉ seen → ∃ m' ∈ (dedupWalk seen l).1, m'.id = m.id := by
  induction l generalizing seen with
  | nil => intro m hm; exact absurd hm (List.not_mem_nil m)
  | cons x xs ih =>
    intro m hm hout
    rcases List.mem_cons.mp hm with hx | hx
    · subst hx
      by_cases h : m.id ∈ seen
      · exact absurd h hout
      · exact ⟨m, by simp [dedupWalk, if_neg h], rfl⟩
    · by_cases h : x.id ∈ seen
      · simp only [dedupWalk, if_pos h]
        exact ih seen m hx hout
      · simp only [dedupWalk, if_neg h]
        by_cases hid : m.id = x.id
        · exact ⟨x, List.mem_cons_self _ _, hid.symm⟩
        · obtain ⟨m', hm', heq⟩ := ih (x.id :: seen) m hx (by
            intro hs
            rcases List.mem_cons.mp hs with hh | hh
            · exact hid hh
            · exact hout hh)
          exact ⟨m', List.mem_cons_of_mem _ hm', heq⟩

/-- C5: the derived message view decomposes as the deduplicated pending
sends (walked in reverse insertion order, so most recently queued first)
followed by the deduplicated canonical sequence; the whole list carries
no duplicate ids; and every pending send whose id is not in the
canonical index surfaces (by id) in the pending part, hence ahead of
every canonical message. -/
theorem derived_view_spec (st : ChatStore) :
    ((derivedMessages st).map Msg.id).Nodup ∧
    derivedMessages st = pendingPart st ++ canonicalPart st ∧
    (pendingPart st).Sublist (st.sent.map Prod.snd).reverse ∧
    (canonicalPart st).Sublist st.messages ∧
    (∀ m ∈ st.sent.map Prod.snd, ¬ mapHas st.index m.id →
      ∃ m' ∈ pendingPart st, m'.id = m.id) := by
  refine ⟨?_, rfl, dedupWalk_sublist _ _, dedupWalk_sublist _ _, ?_⟩
  · unfold derivedMessages pendingPart canonicalPart
    rw [List.map_append, List.nodup_append]
    obtain ⟨hnd1, _⟩ := dedupWalk_nodup [] (st.sent.map Prod.snd).reverse
    obtain ⟨hnd2, hout2⟩ :=
      dedupWalk_nodup (dedupWalk [] (st.sent.map Prod.snd).reverse).2 st.messages
    refine ⟨hnd1, hnd2, ?_⟩
    intro k hk1 hk2
    obtain ⟨m1, hm1, hid1⟩ := List.mem_map.mp hk1
    obtain ⟨m2, hm2, hid2⟩ := List.mem_map.mp hk2
    have hmem1 : m1 ∈ (st.sent.map Prod.snd).reverse :=
      (dedupWalk_sublist _ _).mem hm1
    have hseen : k ∈ (dedupWalk [] (st.sent.map Prod.snd).reverse).2 := by
      rw [dedupWalk_seen_mem]
      exact Or.inr (hid1 ▸ List.mem_map_of_mem Msg.id hmem1)
    exact (hout2 m2 hm2) (hid2 ▸ hseen)
  · intro m hm _
    exact dedupWalk_covers [] _ m (List.mem_reverse.mpr hm) (List.not_mem_nil _)

/-- Witness for C5 at a concrete store with one pending send (id not in
the canonical index) and one canonical message. -/
theorem derived_view_spec_witness :
    ((derivedMessages ⟨[⟨"a", 5, "y"⟩], [("a", ⟨"a", 5, "y"⟩)],
        [("p", ⟨"p", 9, "x"⟩)], true, none, none, none⟩).map Msg.id).Nodup ∧
    derivedMessages ⟨[⟨"a", 5, "y"⟩], [("a", ⟨"a", 5, "y"⟩)],
        [("p", ⟨"p", 9, "x"⟩)], true, none, none, none⟩ =
      pendingPart ⟨[⟨"a", 5, "y"⟩], [("a", ⟨"a", 5, "y"⟩)],
        [("p", ⟨"p", 9, "x"⟩)], true, none, none, none⟩ ++
      canonicalPart ⟨[⟨"a", 5, "y"⟩], [("a", ⟨"a", 5, "y"⟩)],
        [("p", ⟨"p", 9, "x"⟩)], true, none, none, none⟩ ∧
    (pendingPart ⟨[⟨"a", 5, "y"⟩], [("a", ⟨"a", 5, "y"⟩)],
        [("p", ⟨"p", 9, "x"⟩)], true, none, none, none⟩).Sublist
      (((⟨[⟨"a", 5, "y"⟩], [("a", ⟨"a", 5, "y"⟩)], [("p", ⟨"p", 9, "x"⟩)],
        true, none, none, none⟩ : ChatStore).sent).map Prod.snd).reverse ∧
    (canonicalPart ⟨[⟨"a", 5, "y"⟩], [("a", ⟨"a", 5, "y"⟩)],
        [("p", ⟨"p", 9, "x"⟩)], true, none, none, none⟩).Sublist
      (⟨[⟨"a", 5, "y"⟩], [("a", ⟨"a", 5, "y"⟩)], [("p", ⟨"p", 9, "x"⟩)],
        true, none, none, none⟩ : ChatStore).messages ∧
    (∀ m ∈ ((⟨[⟨"a", 5, "y"⟩], [("a", ⟨"a", 5, "y"⟩)], [("p", ⟨"p", 9, "x"⟩)],
        true, none, none, none⟩ : ChatStore).sent).map Prod.snd,
      ¬ mapHas ([("a", ⟨"a", 5, "y"⟩)] : StrMap Msg) m.id →
        ∃ m' ∈ pendingPart ⟨[⟨"a", 5, "y"⟩], [("a", ⟨"a", 5, "y"⟩)],
          [("p", ⟨"p", 9, "x"⟩)], true, none, none, none⟩, m'.id = m.id) :=
  derived_view_spec _

theorem computeFpl_no_pivot (s : ChatStore) (msgs : List Msg)
    (sb sa : Option Nat) : computeFpl s msgs none sb sa = true := by
  unfold computeFpl
  rw [if_neg (by intro h; exact strTruthy_none h.2.1)]
  simp [strTruthy_none]

theorem processNewMessages_applied (s : ChatStore) (page : Page)
    (sb sa : Option Nat) (hpage : page.messages ≠ []) :
    processNewMessages s (some page) none sb sa =
      (true, processCore s page none sb sa) := by
  have hred : processNewMessages s (some page) none sb sa =
      (if page.messages = [] then (false, s)
       else if strTruthy none ∧ ∀ m ∈ page.messages, some m.id ≠ none then (false, s)
       else (true, processCore s page none sb sa)) := rfl
  rw [hred, if_neg hpage, if_neg (by intro h; exact strTruthy_none h.1)]

/-- C2 amended: for a non-empty store and a non-empty page merged with
no pivot whose last message id is not already indexed, the merge mode
chosen is REPLACE, not append: the canonical sequence and the id index
are cleared first and the page is then treated as an append into the
now-empty store, so the merge equals the same merge performed on the
cleared store and no previously held message survives unless the page
itself carries it. -/
theorem noPivot_unindexed_tail_replace (st : ChatStore) (page : Page)
    (sb sa : Option Nat) (hne : st.messages ≠ []) (hpage : page.messages ≠ [])
    (htail : ∀ lm, page.messages.getLast? = some lm → ¬ mapHas st.index lm.id) :
    classifyAdd st page.messages none sb sa = AddType.replace ∧
    classifyAdd { st with messages := [], index := [] } page.messages none sb sa
      = AddType.append ∧
    processNewMessages st (some page) none sb sa =
      processNewMessages { st with messages := [], index := [] }
        (some page) none sb sa := by
  obtain ⟨lm, hlm⟩ : ∃ lm, page.messages.getLast? = some lm := by
    cases hl : page.messages.getLast? with
    | none => exact absurd (List.getLast?_eq_none_iff.mp hl) hpage
    | some x => exact ⟨x, rfl⟩
  have hA : classifyAdd st page.messages none sb sa = AddType.replace := by
    unfold classifyAdd
    rw [if_neg hne, if_pos strTruthy_none, hlm]
    show (if mapHas st.index lm.id then AddType.prepend else AddType.replace)
      = AddType.replace
    exact if_neg (htail lm hlm)
  have hA' : classifyAdd { st with messages := [], index := [] }
      page.messages none sb sa = AddType.append := by
    unfold classifyAdd
    rw [if_pos rfl]
  refine ⟨hA, hA', ?_⟩
  rw [processNewMessages_applied st page sb sa hpage,
    processNewMessages_applied _ page sb sa hpage]
  unfold processCore
  simp only [hA, hA', computeFpl_no_pivot]
  simp

/-- C2 counterexample: store holding one message, page with one fresh
message, no pivot, page tail id not indexed — the mode is replace and
the previously held message is discarded, contradicting the claimed
append that keeps every previously held message. -/
theorem noPivot_unindexed_tail_counterexample :
    classifyAdd ⟨[⟨"b", 2, "y"⟩], [("b", ⟨"b", 2, "y"⟩)], [], true, none, none,
        none⟩ [⟨"x", 9, "z"⟩] none none none = AddType.replace ∧
    (processNewMessages ⟨[⟨"b", 2, "y"⟩], [("b", ⟨"b", 2, "y"⟩)], [], true,
        none, none, none⟩ (some ⟨[⟨"x", 9, "z"⟩], ""⟩) none none none).2.messages
      = [⟨"x", 9, "z"⟩] ∧
    (⟨"b", 2, "y"⟩ : Msg) ∈
      (⟨[⟨"b", 2, "y"⟩], [("b", ⟨"b", 2, "y"⟩)], [], true, none, none,
        none⟩ : ChatStore).messages ∧
    (⟨"b", 2, "y"⟩ : Msg) ∉
      (processNewMessages ⟨[⟨"b", 2, "y"⟩], [("b", ⟨"b", 2, "y"⟩)], [], true,
        none, none, none⟩ (some ⟨[⟨"x", 9, "z"⟩], ""⟩) none none none).2.messages := by
  decide

/-- Witness for the amended C2 theorem at the counterexample inputs. -/
theorem noPivot_unindexed_tail_replace_witness :
    ((⟨[⟨"b", 2, "y"⟩], [("b", ⟨"b", 2, "y"⟩)], [], true, none, none,
        none⟩ : ChatStore).messages ≠ []) ∧
    ((⟨[⟨"x", 9, "z"⟩], ""⟩ : Page).messages ≠ []) ∧
    (∀ lm, (⟨[⟨"x", 9, "z"⟩], ""⟩ : Page).messages.getLast? = some lm →
      ¬ mapHas ([("b", ⟨"b", 2, "y"⟩)] : StrMap Msg) lm.id) ∧
    processNewMessages ⟨[⟨"b", 2, "y"⟩], [("b", ⟨"b", 2, "y"⟩)], [], true,
        none, none, none⟩ (some ⟨[⟨"x", 9, "z"⟩], ""⟩) none none none =
      processNewMessages ⟨[], [], [], true, none, none, none⟩
        (some ⟨[⟨"x", 9, "z"⟩], ""⟩) none none none :=
  ⟨by decide, by decide, by decide,
    (noPivot_unindexed_tail_replace ⟨[⟨"b", 2, "y"⟩], [("b", ⟨"b", 2, "y"⟩)],
      [], true, none, none, none⟩ ⟨[⟨"x", 9, "z"⟩], ""⟩ none none
      (by decide) (by decide) (by decide)).2.2⟩

theorem freshPred_congr {idx idx' : StrMap Msg} (m : Msg)
    (h : mapHas idx' m.id ↔ mapHas idx m.id) :
    freshPred idx' m = freshPred idx m := by
  unfold freshPred
  congr 1
  exact decide_eq_decide.mpr (not_congr h)

theorem insertAll_messages_append (l : List Msg) (acc : MergeAcc)
    (hnd : (l.map Msg.id).Nodup) :
    (insertAll true acc l).messages =
      acc.messages ++ l.filter (freshPred acc.index) := by
  induction l generalizing acc with
  | nil => simp [insertAll]
  | cons m ms ih =>
    simp only [List.map_cons, List.nodup_cons] at hnd
    obtain ⟨hm, hms⟩ := hnd
    have hne_ms : ∀ pm ∈ ms, pm.id ≠ m.id := by
      intro pm hpm he
      exact hm (he ▸ List.mem_map_of_mem Msg.id hpm)
    unfold insertAll
    by_cases hid : m.id = ""
    · have hstep : insertStep true acc m = acc := by
        unfold insertStep; rw [if_pos hid]
      have hfp : freshPred acc.index m = false := by
        unfold freshPred; simp [hid]
      rw [hstep, ih acc hms, List.filter_cons, hfp]
      simp
    · cases hget : mapGet acc.index m.id with
      | some ex =>
        have hfp : freshPred acc.index m = false := by
          unfold freshPred
          simp [mapHas, hget]
        by_cases hdif : ex = m
        · have hstep : insertStep true acc m = acc := by
            unfold insertStep
            rw [if_neg hid, hget]
            simp [hdif]
          rw [hstep, ih acc hms, List.filter_cons, hfp]
          simp
        · have hstep : insertStep true acc m =
              { acc with index := mapSet acc.index m.id m, updated := m.id :: acc.updated } := by
            unfold insertStep
            rw [if_neg hid, hget]
            simp [hdif]
          rw [hstep, ih _ hms, List.filter_cons, hfp]
          have hfcong : ms.filter (freshPred (mapSet acc.index m.id m)) =
              ms.filter (freshPred acc.index) := by
            apply List.filter_congr
            intro pm hpm
            apply freshPred_congr
            rw [mapHas_mapSet]
            simp [hne_ms pm hpm]
          simp [hfcong]
      | none =>
        have hfp : freshPred acc.index m = true := by
          unfold freshPred
          simp [mapHas, hget, hid]
        have hstep : insertStep true acc m =
            { acc with index := mapSet acc.index m.id m, sent := mapDelete acc.sent m.id, messages := acc.messages ++ [m] } := by
          unfold insertStep
          rw [if_neg hid, hget]
          simp
        rw [hstep, ih _ hms, List.filter_cons, hfp]
        have hfcong : ms.filter (freshPred (mapSet acc.index m.id m)) =
            ms.filter (freshPred acc.index) := by
          apply List.filter_congr
          intro pm hpm
          apply freshPred_congr
          rw [mapHas_mapSet]
          simp [hne_ms pm hpm]
        simp [hfcong]

theorem insertAll_messages_prepend (l : List Msg) (acc : MergeAcc)
    (hnd : (l.map Msg.id).Nodup) :
    (insertAll false acc l).messages =
      (l.filter (freshPred acc.index)).reverse ++ acc.messages := by
  induction l generalizing acc with
  | nil => simp [insertAll]
  | cons m ms ih =>
    simp only [List.map_cons, List.nodup_cons] at hnd
    obtain ⟨hm, hms⟩ := hnd
    have hne_ms : ∀ pm ∈ ms, pm.id ≠ m.id := by
      intro pm hpm he
      exact hm (he ▸ List.mem_map_of_mem Msg.id hpm)
    unfold insertAll
    by_cases hid : m.id = ""
    · have hstep : insertStep false acc m = acc := by
        unfold insertStep; rw [if_pos hid]
      have hfp : freshPred acc.index m = false := by
        unfold freshPred; simp [hid]
      rw [hstep, ih acc hms, List.filter_cons, hfp]
      simp
    · cases hget : mapGet acc.index m.id with
      | some ex =>
        have hfp : freshPred acc.index m = false := by
          unfold freshPred
          simp [mapHas, hget]
        by_cases hdif : ex = m
        · have hstep : insertStep false acc m = acc := by
            unfold insertStep
            rw [if_neg hid, hget]
            simp [hdif]
          rw [hstep, ih acc hms, List.filter_cons, hfp]
          simp
        · have hstep : insertStep false acc m =
              { acc with index := mapSet acc.index m.id m, updated := m.id :: acc.updated } := by
            unfold insertStep
            rw [if_neg hid, hget]
            simp [hdif]
          rw [hstep, ih _ hms, List.filter_cons, hfp]
          have hfcong : ms.filter (freshPred (mapSet acc.index m.id m)) =
              ms.filter (freshPred acc.index) := by
            apply List.filter_congr
            intro pm hpm
            apply freshPred_congr
            rw [mapHas_mapSet]
            simp [hne_ms pm hpm]
          simp [hfcong]
      | none =>
        have hfp : freshPred acc.index m = true := by
          unfold freshPred
          simp [mapHas, hget, hid]
        have hstep : insertStep false acc m =
            { acc with index := mapSet acc.index m.id m, sent := mapDelete acc.sent m.id, messages := m :: acc.messages } := by
          unfold insertStep
          rw [if_neg hid, hget]
          simp
        rw [hstep, ih _ hms, List.filter_cons, hfp]
        have hfcong : ms.filter (freshPred (mapSet acc.index m.id m)) =
            ms.filter (freshPred acc.index) := by
          apply List.filter_congr
          intro pm hpm
          apply freshPred_congr
          rw [mapHas_mapSet]
          simp [hne_ms pm hpm]
        simp [hfcong]

theorem insertStep_index_ne (b : Bool) (acc : MergeAcc) (m : Msg) (k : String)
    (h : m.id ≠ k) :
    mapGet (insertStep b acc m).index k = mapGet acc.index k := by
  unfold insertStep
  by_cases hid : m.id = ""
  · rw [if_pos hid]
  · rw [if_neg hid]
    cases hget : mapGet acc.index m.id with
    | some ex =>
      by_cases hdif : ex = m
      · simp [hdif]
      · simp only [hdif]
        simp [mapGet_mapSet_ne acc.index m.id k m (Ne.symm h), hdif]
    | none =>
      simp [mapGet_mapSet_ne acc.index m.id k m (Ne.symm h)]

theorem insertAll_index_untouched (b : Bool) (l : List Msg) (acc : MergeAcc)
    (k : String) (h : ∀ pm ∈ l, pm.id = k → pm.id = "") :
    mapGet (insertAll b acc l).index k = mapGet acc.index k := by
  induction l generalizing acc with
  | nil => rfl
  | cons m ms ih =>
    unfold insertAll
    rw [ih _ (fun pm hpm => h pm (List.mem_cons_of_mem _ hpm))]
    by_cases hmk : m.id = k
    · have hide : m.id = "" := h m (List.mem_cons_self _ _) hmk
      unfold insertStep
      rw [if_pos hide]
    · exact insertStep_index_ne b acc m k hmk

theorem insertAll_index_page (b : Bool) (l : List Msg) (acc : MergeAcc)
    (hnd : (l.map Msg.id).Nodup) (pm : Msg) (hpm : pm ∈ l) (hid : pm.id ≠ "") :
    mapGet (insertAll b acc l).index pm.id = some pm := by
  induction l generalizing acc with
  | nil => exact absurd hpm (List.not_mem_nil pm)
  | cons m ms ih =>
    simp only [List.map_cons, List.nodup_cons] at hnd
    obtain ⟨hm, hms⟩ := hnd
    unfold insertAll
    rcases List.mem_cons.mp hpm with he | hin
    · subst he
      have hstep : mapGet (insertStep b acc pm).index pm.id = some pm := by
        unfold insertStep
        rw [if_neg hid]
        cases hget : mapGet acc.index pm.id with
        | some ex =>
          by_cases hdif : ex = pm
          · simp [hdif, hget]
          · simp [hdif, mapGet_mapSet_self]
        | none =>
          simp [mapGet_mapSet_self]
      rw [insertAll_index_untouched b ms _ pm.id
        (fun q hq hqe => absurd (hqe ▸ List.mem_map_of_mem Msg.id hq) hm)]
      exact hstep
    · exact ih _ hms hin

theorem insertAll_updated_mono (b : Bool) (l : List Msg) (acc : MergeAcc)
    (k : String) (hk : k ∈ acc.updated) : k ∈ (insertAll b acc l).updated := by
  induction l generalizing acc with
  | nil => exact hk
  | cons m ms ih =>
    unfold insertAll
    apply ih
    unfold insertStep
    by_cases hid : m.id = ""
    · rw [if_pos hid]; exact hk
    · rw [if_neg hid]
      cases mapGet acc.index m.id with
      | some ex =>
        by_cases hdif : ex = m
        · simp [hdif]; exact hk
        · simp [hdif]; exact Or.inr hk
      | none => exact hk

theorem insertAll_updated_sound (b : Bool) (l : List Msg) (acc : MergeAcc)
    (hnd : (l.map Msg.id).Nodup) (k : String)
    (hk : k ∈ (insertAll b acc l).updated) :
    k ∈ acc.updated ∨ ∃ pm, pm ∈ l ∧ pm.id = k ∧ pm.id ≠ "" ∧
      ∃ ex, mapGet acc.index k = some ex ∧ ex ≠ pm := by
  induction l generalizing acc with
  | nil => exact Or.inl hk
  | cons m ms ih =>
    simp only [List.map_cons, List.nodup_cons] at hnd
    obtain ⟨hm, hms⟩ := hnd
    have hne_ms : ∀ pm ∈ ms, pm.id ≠ m.id := by
      intro pm hpm he
      exact hm (he ▸ List.mem_map_of_mem Msg.id hpm)
    unfold insertAll at hk
    rcases ih (insertStep b acc m) hms hk with hbase | ⟨pm, hpmm, hpk, hpne, ex, hex, hexne⟩
    · unfold insertStep at hbase
      by_cases hid : m.id = ""
      · rw [if_pos hid] at hbase
        exact Or.inl hbase
      · rw [if_neg hid] at hbase
        cases hget : mapGet acc.index m.id with
        | some ex =>
          rw [hget] at hbase
          by_cases hdif : ex = m
          · simp [hdif] at hbase
            exact Or.inl hbase
          · simp [hdif] at hbase
            rcases hbase with hkm | hold
            · exact Or.inr ⟨m, List.mem_cons_self _ _, hkm.symm, hid,
                ex, hkm ▸ hget, hdif⟩
            · exact Or.inl hold
        | none =>
          rw [hget] at hbase
          exact Or.inl hbase
    · refine Or.inr ⟨pm, List.mem_cons_of_mem _ hpmm, hpk, hpne, ex, ?_, hexne⟩
      rw [← hex, ← hpk]
      exact (insertStep_index_ne b acc m pm.id (Ne.symm (hne_ms pm hpmm))).symm

theorem insertAll_updated_complete (b : Bool) (l : List Msg) (acc : MergeAcc)
    (hnd : (l.map Msg.id).Nodup) (pm : Msg) (ex : Msg) (hpm : pm ∈ l)
    (hid : pm.id ≠ "") (hex : mapGet acc.index pm.id = some ex) (hne : ex ≠ pm) :
    pm.id ∈ (insertAll b acc l).updated := by
  induction l generalizing acc with
  | nil => exact absurd hpm (List.not_mem_nil pm)
  | cons m ms ih =>
    simp only [List.map_cons, List.nodup_cons] at hnd
    obtain ⟨hm, hms⟩ := hnd
    unfold insertAll
    rcases List.mem_cons.mp hpm with he | hin
    · subst he
      apply insertAll_updated_mono
      unfold insertStep
      rw [if_neg hid, hex]
      simp [hne]
    · have hne_m : pm.id ≠ m.id := by
        intro he
        exact hm (he ▸ List.mem_map_of_mem Msg.id hin)
      refine ih _ hms hin ?_
      rw [insertStep_index_ne b acc m pm.id (Ne.symm hne_m)]
      exact hex

theorem applyUpdates_eq_map (acc : MergeAcc) :
    applyUpdates acc = acc.messages.map (fun m =>
      if m.id ∈ acc.updated then (mapGet acc.index m.id).getD m else m) := by
  unfold applyUpdates
  by_cases h : acc.updated = []
  · rw [if_pos h]
    have : ∀ m ∈ acc.messages,
        (if m.id ∈ acc.updated then (mapGet acc.index m.id).getD m else m) = m := by
      intro m _
      rw [if_neg (by rw [h]; exact List.not_mem_nil _)]
    rw [List.map_congr_left this]
    exact (List.map_id _).symm
  · rw [if_neg h]

theorem sorted_le_head (l : List Msg) (hl : SortedByCreated l) (hd : Msg)
    (h : l.head? = some hd) : ∀ b ∈ l, b.createdAt ≤ hd.createdAt := by
  cases l with
  | nil => cases h
  | cons x xs =>
    have hx : hd = x := by
      simp only [List.head?_cons, Option.some.injEq] at h
      exact h.symm
    subst hx
    intro b hb
    rcases List.mem_cons.mp hb with he | hin
    · exact le_of_eq (by rw [he])
    · exact (List.pairwise_cons.mp hl).1 b hin

theorem sorted_getLast_le (l : List Msg) (hl : SortedByCreated l) (tl : Msg)
    (h : l.getLast? = some tl) : ∀ a ∈ l, tl.createdAt ≤ a.createdAt := by
  induction l with
  | nil => cases h
  | cons x xs ih =>
    intro a ha
    cases xs with
    | nil =>
      have hx : tl = x := by
        simp only [List.getLast?_singleton, Option.some.injEq] at h
        exact h.symm
      rcases List.mem_singleton.mp ha with rfl
      exact le_of_eq (by rw [hx])
    | cons y ys =>
      have hlast : (y :: ys).getLast? = some tl := by
        rw [← h]
        exact List.getLast?_cons_cons.symm
      have htlmem : tl ∈ y :: ys := by
        have hsome := List.getLast?_eq_getLast (y :: ys) (by simp)
        rw [hsome] at hlast
        have := Option.some.inj hlast
        rw [← this]
        exact List.getLast_mem _
      rcases List.mem_cons.mp ha with he | hin
      · subst he
        exact (List.pairwise_cons.mp hl).1 tl htlmem
      · exact ih (List.pairwise_cons.mp hl).2 hlast a hin

theorem merged_inv_core (acc : MergeAcc) (idx0 : StrMap Msg)
    (it l msgs0 : List Msg)
    (hit : ∀ x : Msg, x ∈ it ↔ x ∈ l)
    (hF2 : ∀ pm ∈ it, pm.id ≠ "" → mapGet acc.index pm.id = some pm)
    (hF3 : ∀ k, (∀ pm ∈ it, pm.id = k → pm.id = "") →
      mapGet acc.index k = mapGet idx0 k)
    (hF4 : ∀ k ∈ acc.updated, ∃ pm, pm ∈ it ∧ pm.id = k ∧ pm.id ≠ "" ∧
      ∃ ex, mapGet idx0 k = some ex ∧ ex ≠ pm)
    (hF5 : ∀ pm ∈ it, pm.id ≠ "" → ∀ ex, mapGet idx0 pm.id = some ex →
      ex ≠ pm → pm.id ∈ acc.updated)
    (hMsorted : SortedByCreated acc.messages)
    (hMnodup : ((acc.messages).map Msg.id).Nodup)
    (hMsplit : ∀ m ∈ acc.messages, m ∈ msgs0 ∨
      (m ∈ l ∧ freshPred idx0 m = true))
    (h0idx : ∀ m ∈ msgs0, mapGet idx0 m.id = some m)
    (hstable : ∀ pm ∈ l, ∀ ex, mapGet idx0 pm.id = some ex →
      ex.createdAt = pm.createdAt) :
    ((applyUpdates acc).map Msg.id).Nodup ∧
    (∀ m ∈ applyUpdates acc, mapGet acc.index m.id = some m) ∧
    SortedByCreated (applyUpdates acc) := by
  have hFidx0 : ∀ k, (∀ pm ∈ it, pm.id = k → pm.id = "") →
      mapGet acc.index k = mapGet idx0 k := hF3
  have hG : ∀ m ∈ acc.messages,
      ((if m.id ∈ acc.updated then (mapGet acc.index m.id).getD m else m).id
          = m.id ∧
        (if m.id ∈ acc.updated then (mapGet acc.index m.id).getD m
          else m).createdAt = m.createdAt ∧
        mapGet acc.index m.id =
          some (if m.id ∈ acc.updated then (mapGet acc.index m.id).getD m
            else m)) := by
    intro m hm
    by_cases hU : m.id ∈ acc.updated
    · obtain ⟨pm, hpm_it, hpm_id, hpm_ne, ex, hex, hex_ne⟩ := hF4 m.id hU
      have hgetI : mapGet acc.index m.id = some pm := by
        have hh := hF2 pm hpm_it hpm_ne
        rw [hpm_id] at hh
        exact hh
      have hm0 : m ∈ msgs0 := by
        rcases hMsplit m hm with h0 | ⟨_, hfr⟩
        · exact h0
        · exfalso
          unfold freshPred at hfr
          simp only [Bool.and_eq_true, decide_eq_true_eq] at hfr
          exact hfr.2 (mapHas_of_get_some hex)
      have hexm : ex = m := by
        have hh := h0idx m hm0
        rw [hex] at hh
        exact Option.some.inj hh
      have hcr : pm.createdAt = m.createdAt := by
        have hh := hstable pm ((hit pm).mp hpm_it) ex (by rw [hpm_id]; exact hex)
        rw [hexm] at hh
        exact hh.symm
      rw [if_pos hU, hgetI]
      exact ⟨hpm_id, hcr, rfl⟩
    · rw [if_neg hU]
      refine ⟨rfl, rfl, ?_⟩
      rcases hMsplit m hm with h0 | ⟨hml, hfr⟩
      · by_cases hpage : ∃ pm, pm ∈ it ∧ pm.id = m.id ∧ pm.id ≠ ""
        · obtain ⟨pm, hpm_it, hpid, hpne⟩ := hpage
          by_cases hpm_eq : pm = m
          · have hh := hF2 pm hpm_it hpne
            rw [hpid] at hh
            rw [hh, hpm_eq]
          · exfalso
            apply hU
            have hgot : mapGet idx0 pm.id = some m := by
              rw [hpid]
              exact h0idx m h0
            have hh := hF5 pm hpm_it hpne m hgot
              (fun he => hpm_eq he.symm)
            rw [hpid] at hh
            exact hh
        · have hcondF3 : ∀ pm ∈ it, pm.id = m.id → pm.id = "" := by
            intro pm hpm hpm_id
            by_contra hne
            exact hpage ⟨pm, hpm, hpm_id, hne⟩
          rw [hF3 m.id hcondF3]
          exact h0idx m h0
      · have hid : m.id ≠ "" := by
          unfold freshPred at hfr
          simp only [Bool.and_eq_true, decide_eq_true_eq] at hfr
          exact hfr.1
        exact hF2 m ((hit m).mpr hml) hid
  have happ := applyUpdates_eq_map acc
  refine ⟨?_, ?_, ?_⟩
  · rw [happ]
    have heq : acc.messages.map (Msg.id ∘ (fun m =>
        if m.id ∈ acc.updated then (mapGet acc.index m.id).getD m else m)) =
        acc.messages.map Msg.id :=
      List.map_congr_left (fun m hm => (hG m hm).1)
    rw [← List.map_map] at heq
    rw [heq]
    exact hMnodup
  · rw [happ]
    intro m' hm'
    obtain ⟨m, hm, hfm⟩ := List.mem_map.mp hm'
    rw [← hfm]
    rw [(hG m hm).1]
    exact (hG m hm).2.2
  · rw [happ]
    unfold SortedByCreated
    rw [List.pairwise_map]
    apply List.Pairwise.imp_of_mem ?_ hMsorted
    intro a b ha hb hR
    rw [(hG a ha).2.1, (hG b hb).2.1]
    exact hR

theorem filter_reverse_reverse (p : Msg → Bool) (l : List Msg) :
    (l.reverse.filter p).reverse = l.filter p := by
  rw [List.filter_reverse, List.reverse_reverse]

theorem merged_inv (b : Bool) (idx0 sent0 : StrMap Msg) (msgs0 l : List Msg)
    (hnd : (l.map Msg.id).Nodup)
    (h0nd : (msgs0.map Msg.id).Nodup)
    (h0idx : ∀ m ∈ msgs0, mapGet idx0 m.id = some m)
    (h0sort : SortedByCreated msgs0)
    (hlsort : SortedByCreated l)
    (hstable : ∀ pm ∈ l, ∀ ex, mapGet idx0 pm.id = some ex →
      ex.createdAt = pm.createdAt)
    (hcrossA : b = true → ∀ m ∈ l, freshPred idx0 m = true →
      ∀ a ∈ msgs0, m.createdAt ≤ a.createdAt)
    (hcrossP : b = false → ∀ m ∈ l, freshPred idx0 m = true →
      ∀ a ∈ msgs0, a.createdAt ≤ m.createdAt) :
    ((applyUpdates (insertAll b ⟨idx0, sent0, msgs0, []⟩
        (if b then l else l.reverse))).map Msg.id).Nodup ∧
    (∀ m ∈ applyUpdates (insertAll b ⟨idx0, sent0, msgs0, []⟩
        (if b then l else l.reverse)),
      mapGet (insertAll b ⟨idx0, sent0, msgs0, []⟩
        (if b then l else l.reverse)).index m.id = some m) ∧
    SortedByCreated (applyUpdates (insertAll b ⟨idx0, sent0, msgs0, []⟩
      (if b then l else l.reverse))) := by
  have hNsub : (l.filter (freshPred idx0)).Sublist l := List.filter_sublist l
  have hNnodup : ((l.filter (freshPred idx0)).map Msg.id).Nodup :=
    List.Nodup.sublist (hNsub.map Msg.id) hnd
  have hNsort : SortedByCreated (l.filter (freshPred idx0)) :=
    List.Pairwise.sublist hNsub hlsort
  have hdisj : (msgs0.map Msg.id).Disjoint ((l.filter (freshPred idx0)).map Msg.id) := by
    intro k hk1 hk2
    obtain ⟨a, ha, hka⟩ := List.mem_map.mp hk1
    obtain ⟨n, hn, hkn⟩ := List.mem_map.mp hk2
    obtain ⟨hnl, hnf⟩ := List.mem_filter.mp hn
    unfold freshPred at hnf
    simp only [Bool.and_eq_true, decide_eq_true_eq] at hnf
    apply hnf.2
    rw [hkn, ← hka]
    exact mapHas_of_get_some (h0idx a ha)
  cases b with
  | true =>
    simp only [if_true]
    have hM : (insertAll true ⟨idx0, sent0, msgs0, []⟩ l).messages =
        msgs0 ++ l.filter (freshPred idx0) :=
      insertAll_messages_append l ⟨idx0, sent0, msgs0, []⟩ hnd
    apply merged_inv_core _ idx0 l l msgs0 (fun x => Iff.rfl)
    · exact fun pm hpm hid =>
        insertAll_index_page true l _ hnd pm hpm hid
    · exact fun k hcond => insertAll_index_untouched true l _ k hcond
    · intro k hk
      rcases insertAll_updated_sound true l _ hnd k hk with h | h
      · exact absurd h (List.not_mem_nil k)
      · exact h
    · exact fun pm hpm hid ex hex hne =>
        insertAll_updated_complete true l _ hnd pm ex hpm hid hex hne
    · rw [hM]
      refine List.pairwise_append.mpr ⟨h0sort, hNsort, ?_⟩
      intro a ha n hn
      obtain ⟨hnl, hnf⟩ := List.mem_filter.mp hn
      exact hcrossA rfl n hnl hnf a ha
    · rw [hM, List.map_append]
      exact List.nodup_append.mpr ⟨h0nd, hNnodup, hdisj⟩
    · rw [hM]
      intro m hm
      rcases List.mem_append.mp hm with h0 | hN
      · exact Or.inl h0
      · obtain ⟨hml, hmf⟩ := List.mem_filter.mp hN
        exact Or.inr ⟨hml, hmf⟩
    · exact h0idx
    · exact hstable
  | false =>
    simp only [Bool.false_eq_true, if_false]
    have hnd_rev : (l.reverse.map Msg.id).Nodup := by
      rw [List.map_reverse]
      exact List.nodup_reverse.mpr hnd
    have hM : (insertAll false ⟨idx0, sent0, msgs0, []⟩ l.reverse).messages =
        l.filter (freshPred idx0) ++ msgs0 := by
      rw [insertAll_messages_prepend l.reverse ⟨idx0, sent0, msgs0, []⟩ hnd_rev]
      rw [show (⟨idx0, sent0, msgs0, []⟩ : MergeAcc).index = idx0 from rfl]
      rw [filter_reverse_reverse]
    apply merged_inv_core _ idx0 l.reverse l msgs0 (fun x => List.mem_reverse)
    · exact fun pm hpm hid =>
        insertAll_index_page false l.reverse _ hnd_rev pm hpm hid
    · exact fun k hcond => insertAll_index_untouched false l.reverse _ k hcond
    · intro k hk
      rcases insertAll_updated_sound false l.reverse _ hnd_rev k hk with h | h
      · exact absurd h (List.not_mem_nil k)
      · exact h
    · exact fun pm hpm hid ex hex hne =>
        insertAll_updated_complete false l.reverse _ hnd_rev pm ex hpm hid hex hne
    · rw [hM]
      refine List.pairwise_append.mpr ⟨hNsort, h0sort, ?_⟩
      intro n hn a ha
      obtain ⟨hnl, hnf⟩ := List.mem_filter.mp hn
      exact hcrossP rfl n hnl hnf a ha
    · rw [hM, List.map_append]
      exact List.nodup_append.mpr ⟨hNnodup, h0nd, hdisj.symm⟩
    · rw [hM]
      intro m hm
      rcases List.mem_append.mp hm with hN | h0
      · obtain ⟨hml, hmf⟩ := List.mem_filter.mp hN
        exact Or.inr ⟨hml, hmf⟩
      · exact Or.inl h0
    · exact h0idx
    · exact hstable

theorem freshPred_parts {idx : StrMap Msg} {m : Msg}
    (h : freshPred idx m = true) : m.id ≠ "" ∧ ¬ mapHas idx m.id := by
  unfold freshPred at h
  simp only [Bool.and_eq_true, decide_eq_true_eq] at h
  exact h

theorem processCore_preserves (st : ChatStore) (page : Page)
    (pw : Option String) (sb sa : Option Nat) (hinv : StoreInv st)
    (hcons : PageConsistent st page pw sb sa) :
    StoreInv (processCore st page pw sb sa) := by
  obtain ⟨hnodup, hidx, hsort⟩ := hinv
  obtain ⟨hpnd, hpsort, hstable, happend, hprepend⟩ := hcons
  cases hA : classifyAdd st page.messages pw sb sa with
  | append =>
    have hres := merged_inv true st.index st.sent st.messages page.messages
      hpnd hnodup hidx hsort hpsort hstable
      (by
        intro _ m hml hfr a ha
        have hne : st.messages ≠ [] := by
          intro h
          rw [h] at ha
          exact absurd ha (List.not_mem_nil a)
        obtain ⟨tl, htl⟩ : ∃ tl, st.messages.getLast? = some tl := by
          cases hgl : st.messages.getLast? with
          | none => exact absurd (List.getLast?_eq_none_iff.mp hgl) hne
          | some x => exact ⟨x, rfl⟩
        have h1 : m.createdAt ≤ tl.createdAt :=
          happend hA m hml (freshPred_parts hfr).2 tl htl
        exact le_trans h1 (sorted_getLast_le st.messages hsort tl htl a ha))
      (by intro h; exact absurd h (by decide))
    unfold StoreInv processCore
    simp only [hA]
    simp only [show (AddType.append = AddType.replace) = False from by simp,
      if_false, iff_false]
    exact hres
  | prepend =>
    have hres := merged_inv false st.index st.sent st.messages page.messages
      hpnd hnodup hidx hsort hpsort hstable
      (by intro h; exact absurd h (by decide))
      (by
        intro _ m hml hfr a ha
        have hne : st.messages ≠ [] := by
          intro h
          rw [h] at ha
          exact absurd ha (List.not_mem_nil a)
        obtain ⟨hd, hhd⟩ : ∃ hd, st.messages.head? = some hd := by
          cases hgl : st.messages.head? with
          | none => exact absurd (List.head?_eq_none_iff.mp hgl) hne
          | some x => exact ⟨x, rfl⟩
        have h1 : hd.createdAt ≤ m.createdAt :=
          hprepend hA m hml (freshPred_parts hfr).2 hd hhd
        exact le_trans (sorted_le_head st.messages hsort hd hhd a ha) h1)
    unfold StoreInv processCore
    simp only [hA]
    exact hres
  | replace =>
    have hres := merged_inv true [] st.sent [] page.messages
      hpnd (by simp) (fun m hm => absurd hm (List.not_mem_nil m))
      List.Pairwise.nil hpsort
      (fun pm _ ex hex => Option.noConfusion hex)
      (fun _ m _ _ a ha => absurd ha (List.not_mem_nil a))
      (by intro h; exact absurd h (by decide))
    unfold StoreInv processCore
    simp only [hA]
    exact hres

/-- C1: merging any page (or rejecting it) preserves the canonical-store
invariant — at most one entry per id in the canonical sequence, every
entry indexed under its id, and a single consistent chronological order
— provided the page is consistent with the store (unique sorted page
ids, stable creation times for already indexed ids, and a correctly
anchored pivot so that genuinely new messages extend the proper end).
Iterating this step gives the property for every sequence of such
`mergePage` calls. -/
theorem mergePage_preserves_invariant (st : ChatStore) (pageData : Option Page)
    (pw : Option String) (sb sa : Option Nat) (hinv : StoreInv st)
    (hcons : ∀ page, pageData = some page → PageConsistent st page pw sb sa) :
    StoreInv (processNewMessages st pageData pw sb sa).2 := by
  cases pageData with
  | none => exact hinv
  | some page =>
    have hred : processNewMessages st (some page) pw sb sa =
        (if page.messages = [] then (false, st)
         else if strTruthy pw ∧ ∀ m ∈ page.messages, some m.id ≠ pw then (false, st)
         else (true, processCore st page pw sb sa)) := rfl
    by_cases hempty : page.messages = []
    · rw [hred, if_pos hempty]
      exact hinv
    · by_cases hrej : strTruthy pw ∧ ∀ m ∈ page.messages, some m.id ≠ pw
      · rw [hred, if_neg hempty, if_pos hrej]
        exact hinv
      · rw [hred, if_neg hempty, if_neg hrej]
        exact processCore_preserves st page pw sb sa hinv (hcons page rfl)

/-- Witness for C1: a store holding one message and an anchored
older-page continuation (pivot at the tail, backward slice). -/
theorem mergePage_preserves_invariant_witness :
    StoreInv ⟨[⟨"b", 30, "x"⟩], [("b", ⟨"b", 30, "x"⟩)], [], true, some "b",
      some "7", none⟩ ∧
    PageConsistent ⟨[⟨"b", 30, "x"⟩], [("b", ⟨"b", 30, "x"⟩)], [], true,
      some "b", some "7", none⟩ ⟨[⟨"b", 30, "x"⟩, ⟨"c", 20, "y"⟩], "9"⟩
      (some "b") (some 50) none ∧
    StoreInv (processNewMessages ⟨[⟨"b", 30, "x"⟩], [("b", ⟨"b", 30, "x"⟩)],
        [], true, some "b", some "7", none⟩
      (some ⟨[⟨"b", 30, "x"⟩, ⟨"c", 20, "y"⟩], "9"⟩) (some "b") (some 50)
      none).2 := by
  refine ⟨by decide, by decide, ?_⟩
  exact mergePage_preserves_invariant _ _ _ _ _ (by decide)
    (fun page hp => by cases hp; decide)
